import Mathlib

/-!
Verification of the GraphRAG-Web-Assistant ingestion-and-retrieval pipeline.

This file gives a shallow embedding of the three core components of the
repository — the bounded web crawler (`web_loader.py`), the knowledge-graph
builder (`graph_builder.py`) and the hybrid retrieval engine
(`rag_chain.py`) — and proves the documented properties about them.

External collaborators (the HTTP fetch, the URL library, the LLM extraction
call and the Neo4j / vector stores) are modelled as explicit oracles passed
to the embedded functions; the store itself is modelled as insertion-ordered
association lists whose upsert operation mirrors the Cypher
`MERGE ... SET` statements issued by the code.
-/

set_option linter.unusedSectionVars false

namespace GraphRAG

/-! ## Python string primitives used by the code

The code calls `str.strip()`, `str.upper()`, `str.replace(' ', '_')` and
`s.split('#')[0]`.  They are embedded as character-list functions so every
definition evaluates inside the kernel. -/

/-- Python `str.strip()`: drop whitespace from both ends. -/
def strip (s : String) : String :=
  ⟨((s.data.dropWhile Char.isWhitespace).reverse.dropWhile Char.isWhitespace).reverse⟩

/-- Python `rel.type.upper().replace(' ', '_')`: uppercase, then replace each
space by an underscore (a single-character `str.replace` is a per-character
substitution). -/
def normalizeRelType (s : String) : String :=
  ⟨(s.data.map Char.toUpper).map (fun c => if c = ' ' then '_' else c)⟩

/-- Python `full_url.split('#')[0]`: the prefix of the string before the
first `#`, the whole string when no `#` occurs. -/
def stripFragment (s : String) : String :=
  ⟨s.data.takeWhile (fun c => c ≠ '#')⟩

/-! ## Association-list upsert: the semantics of Cypher `MERGE ... SET`

Both node merges (`MERGE (n:Entity {id: $id}) SET n.type = $type`) and edge
merges (`MERGE (s)-[r:T]->(t) SET r.description = $d`) are upserts keyed by
an identity: create the record if the key is absent, otherwise overwrite the
non-key payload of the existing record. -/

section AssocUpsert

variable {κ ν : Type} [DecidableEq κ]

/-- The keys of an association list, in record order. -/
def keysOf (l : List (κ × ν)) : List κ := l.map Prod.fst

/-- Upsert one record: if the key is present, set its payload in place,
otherwise append a fresh record. -/
def upsert (l : List (κ × ν)) (k : κ) (v : ν) : List (κ × ν) :=
  if k ∈ keysOf l then l.map (fun p => if p.1 = k then (p.1, v) else p)
  else l ++ [(k, v)]

/-- Fold a batch of upserts, in order. -/
def upserts (l : List (κ × ν)) : List (κ × ν) → List (κ × ν)
  | [] => l
  | kv :: rest => upserts (upsert l kv.1 kv.2) rest

/-- The last payload a batch writes for a key, if any. -/
def lastEntry : List (κ × ν) → κ → Option ν
  | [], _ => none
  | p :: rest, k =>
      if k ∈ keysOf rest then lastEntry rest k
      else if p.1 = k then some p.2 else none

lemma keysOf_cons (p : κ × ν) (l : List (κ × ν)) :
    keysOf (p :: l) = p.1 :: keysOf l := rfl

lemma keysOf_map_update (l : List (κ × ν)) (k : κ) (v : ν) :
    keysOf (l.map (fun p => if p.1 = k then (p.1, v) else p)) = keysOf l := by
  induction l with
  | nil => rfl
  | cons p l ih =>
      simp only [List.map_cons, keysOf_cons]
      by_cases h : p.1 = k <;> simp [h, ih]

lemma mem_keysOf_upsert_self (l : List (κ × ν)) (k : κ) (v : ν) :
    k ∈ keysOf (upsert l k v) := by
  unfold upsert
  by_cases h : k ∈ keysOf l
  · rw [if_pos h, keysOf_map_update]
    exact h
  · rw [if_neg h]
    unfold keysOf
    rw [List.map_append, List.mem_append]
    exact Or.inr (by simp)

lemma mem_keysOf_upsert_of_mem {l : List (κ × ν)} {a : κ} (k : κ) (v : ν)
    (ha : a ∈ keysOf l) : a ∈ keysOf (upsert l k v) := by
  unfold upsert
  by_cases h : k ∈ keysOf l
  · rw [if_pos h, keysOf_map_update]
    exact ha
  · rw [if_neg h]
    unfold keysOf
    rw [List.map_append, List.mem_append]
    exact Or.inl ha

lemma mem_upsert_of_ne {l : List (κ × ν)} {k : κ} {v : ν} {p : κ × ν}
    (hp : p ∈ upsert l k v) (hne : p.1 ≠ k) : p ∈ l := by
  unfold upsert at hp
  by_cases h : k ∈ keysOf l
  · rw [if_pos h] at hp
    obtain ⟨q, hq, hqe⟩ := List.mem_map.mp hp
    by_cases hqk : q.1 = k
    · rw [if_pos hqk] at hqe
      rw [← hqe] at hne
      exact absurd hqk hne
    · rw [if_neg hqk] at hqe
      exact hqe ▸ hq
  · rw [if_neg h] at hp
    rcases List.mem_append.mp hp with hp | hp
    · exact hp
    · rw [List.mem_singleton] at hp
      exact absurd (by rw [hp]) hne

lemma snd_eq_of_mem_upsert {l : List (κ × ν)} {k : κ} {v : ν} {p : κ × ν}
    (hp : p ∈ upsert l k v) (hk : p.1 = k) : p.2 = v := by
  unfold upsert at hp
  by_cases h : k ∈ keysOf l
  · rw [if_pos h] at hp
    obtain ⟨q, hq, hqe⟩ := List.mem_map.mp hp
    by_cases hqk : q.1 = k
    · rw [if_pos hqk] at hqe
      rw [← hqe]
    · rw [if_neg hqk] at hqe
      exact absurd (by rw [hqe]; exact hk) hqk
  · rw [if_neg h] at hp
    rcases List.mem_append.mp hp with hp | hp
    · have : p.1 ∈ keysOf l := List.mem_map_of_mem Prod.fst hp
      exact absurd (hk ▸ this) h
    · rw [List.mem_singleton] at hp
      rw [hp]

lemma mem_keysOf_upserts_of_mem {a : κ} :
    ∀ (kvs l : List (κ × ν)), a ∈ keysOf l → a ∈ keysOf (upserts l kvs)
  | [], _, ha => ha
  | kv :: rest, l, ha =>
      mem_keysOf_upserts_of_mem rest (upsert l kv.1 kv.2)
        (mem_keysOf_upsert_of_mem kv.1 kv.2 ha)

lemma mem_keysOf_upserts {k : κ} :
    ∀ (kvs l : List (κ × ν)), k ∈ keysOf kvs → k ∈ keysOf (upserts l kvs)
  | kv :: rest, l, hk => by
      rw [keysOf_cons, List.mem_cons] at hk
      rcases hk with hk | hk
      · exact hk ▸ mem_keysOf_upserts_of_mem rest _
          (mem_keysOf_upsert_self l kv.1 kv.2)
      · exact mem_keysOf_upserts rest (upsert l kv.1 kv.2) hk

lemma mem_of_mem_upserts {p : κ × ν} :
    ∀ (kvs l : List (κ × ν)), p ∈ upserts l kvs → p.1 ∉ keysOf kvs → p ∈ l
  | [], _, hp, _ => hp
  | kv :: rest, l, hp, hnk => by
      rw [keysOf_cons, List.mem_cons] at hnk
      push_neg at hnk
      exact mem_upsert_of_ne
        (mem_of_mem_upserts rest (upsert l kv.1 kv.2) hp hnk.2) hnk.1

lemma lastEntry_cons (p : κ × ν) (kvs : List (κ × ν)) (k : κ) :
    lastEntry (p :: kvs) k =
      if k ∈ keysOf kvs then lastEntry kvs k
      else if p.1 = k then some p.2 else none := rfl

lemma lastEntry_eq_none {k : κ} :
    ∀ kvs : List (κ × ν), k ∉ keysOf kvs → lastEntry kvs k = none
  | [], _ => rfl
  | kv :: rest, hk => by
      rw [keysOf_cons, List.mem_cons] at hk
      push_neg at hk
      rw [lastEntry_cons, if_neg hk.2, if_neg (fun h => hk.1 h.symm)]

lemma lastEntry_cons_of_mem {k : κ} {kvs : List (κ × ν)} (p : κ × ν)
    (hk : k ∈ keysOf kvs) : lastEntry (p :: kvs) k = lastEntry kvs k := by
  rw [lastEntry_cons, if_pos hk]

lemma lastEntry_cons_self {k : κ} {v : ν} {kvs : List (κ × ν)}
    (hk : k ∉ keysOf kvs) : lastEntry ((k, v) :: kvs) k = some v := by
  rw [lastEntry_cons, if_neg hk, if_pos rfl]

lemma lastEntry_upserts {p : κ × ν} :
    ∀ (kvs l : List (κ × ν)), p ∈ upserts l kvs → p.1 ∈ keysOf kvs →
      lastEntry kvs p.1 = some p.2
  | kv :: rest, l, hp, hk => by
      by_cases hrest : p.1 ∈ keysOf rest
      · rw [lastEntry_cons_of_mem kv hrest]
        exact lastEntry_upserts rest (upsert l kv.1 kv.2) hp hrest
      · rw [keysOf_cons, List.mem_cons] at hk
        rcases hk with hk | hk
        · have hmem : p ∈ upsert l kv.1 kv.2 :=
            mem_of_mem_upserts rest _ hp hrest
          have hv : p.2 = kv.2 := snd_eq_of_mem_upsert hmem hk
          rw [hk, hv]
          exact lastEntry_cons_self (hk ▸ hrest)
        · exact absurd hk hrest

lemma forall₂_eq_of_nil_keys {l m : List (κ × ν)}
    (h : List.Forall₂
      (fun a b => b.1 = a.1 ∧ (a.1 ∉ keysOf ([] : List (κ × ν)) → b = a)) l m) :
    m = l := by
  induction h with
  | nil => rfl
  | cons hab htl ih => rw [ih, hab.2 (by simp [keysOf])]

lemma forall₂_update_step {k₀ : κ} {v₀ : ν} {kvs' l m : List (κ × ν)}
    (h1 : List.Forall₂
      (fun a b => b.1 = a.1 ∧ (a.1 ∉ keysOf ((k₀, v₀) :: kvs') → b = a)) l m)
    (h3 : ∀ p ∈ l, p.1 ∈ keysOf ((k₀, v₀) :: kvs') →
      lastEntry ((k₀, v₀) :: kvs') p.1 = some p.2) :
    List.Forall₂ (fun a b => b.1 = a.1 ∧ (a.1 ∉ keysOf kvs' → b = a)) l
      (m.map (fun p => if p.1 = k₀ then (p.1, v₀) else p)) := by
  induction h1 with
  | nil => exact List.Forall₂.nil
  | @cons a b l' m' hab htl ih =>
      rw [List.map_cons]
      refine List.Forall₂.cons ⟨?_, ?_⟩
        (ih (fun p hp => h3 p (List.mem_cons_of_mem a hp)))
      · by_cases hb : b.1 = k₀
        · rw [if_pos hb]
          exact hab.1
        · rw [if_neg hb]
          exact hab.1
      · intro ha'
        by_cases hak : a.1 = k₀
        · have hmem : a.1 ∈ keysOf ((k₀, v₀) :: kvs') := by
            rw [keysOf_cons, List.mem_cons]
            exact Or.inl hak
          have hlast := h3 a (List.mem_cons_self a l') hmem
          rw [hak] at hlast
          rw [lastEntry_cons_self (hak ▸ ha')] at hlast
          have hv : a.2 = v₀ := (Option.some_inj.mp hlast).symm
          have hbk : b.1 = k₀ := hab.1.trans hak
          rw [if_pos hbk, hab.1, ← hv]
        · have hna : a.1 ∉ keysOf ((k₀, v₀) :: kvs') := by
            rw [keysOf_cons, List.mem_cons]
            rintro (h | h)
            · exact hak h
            · exact ha' h
          have hba := hab.2 hna
          rw [if_neg (by rw [hba]; exact hak), hba]

/-- A batch of upserts replayed against a list that has already absorbed it
restores that list exactly.  `l` is the absorbed list; `m` agrees with `l`
key-for-key and record-for-record outside the batch keys. -/
lemma upserts_restore :
    ∀ (kvs l m : List (κ × ν)),
      List.Forall₂ (fun a b => b.1 = a.1 ∧ (a.1 ∉ keysOf kvs → b = a)) l m →
      (∀ k, k ∈ keysOf kvs → k ∈ keysOf l) →
      (∀ p ∈ l, p.1 ∈ keysOf kvs → lastEntry kvs p.1 = some p.2) →
      upserts m kvs = l
  | [], _, _, h1, _, _ => forall₂_eq_of_nil_keys h1
  | (k₀, v₀) :: kvs', l, m, h1, h2, h3 => by
      have hkeys : keysOf m = keysOf l := by
        clear h2 h3
        induction h1 with
        | nil => rfl
        | cons hab _ ih => rw [keysOf_cons, keysOf_cons, hab.1, ih]
      have hk₀m : k₀ ∈ keysOf m := by
        rw [hkeys]
        exact h2 k₀ (by simp [keysOf])
      have hup : upsert m k₀ v₀ =
          m.map (fun p => if p.1 = k₀ then (p.1, v₀) else p) := by
        rw [upsert, if_pos hk₀m]
      have h2' : ∀ k, k ∈ keysOf kvs' → k ∈ keysOf l := fun k hk =>
        h2 k (by rw [keysOf_cons, List.mem_cons]; exact Or.inr hk)
      have h3' : ∀ p ∈ l, p.1 ∈ keysOf kvs' → lastEntry kvs' p.1 = some p.2 := by
        intro p hp hpk
        have := h3 p hp (by rw [keysOf_cons, List.mem_cons]; exact Or.inr hpk)
        rwa [lastEntry_cons_of_mem (k₀, v₀) hpk] at this
      rw [upserts, hup]
      exact upserts_restore kvs' l _ (forall₂_update_step h1 h3) h2' h3'

/-- Replaying a batch of upserts over its own result is the identity. -/
theorem upserts_absorb (l kvs : List (κ × ν)) :
    upserts (upserts l kvs) kvs = upserts l kvs := by
  refine upserts_restore kvs (upserts l kvs) (upserts l kvs) ?_ ?_ ?_
  · exact List.forall₂_same.mpr (fun p _ => ⟨rfl, fun _ => rfl⟩)
  · intro k hk
    exact mem_keysOf_upserts kvs l hk
  · intro p hp hpk
    exact lastEntry_upserts kvs l hp hpk

end AssocUpsert

/-! ## Knowledge-graph builder (`graph_builder.py`)

The pydantic data model of extraction results, and `GraphBuilder.ingest_documents`:
per segment, extract structured data with the LLM (a call that may throw),
merge every node (`MERGE (n:Entity {id}) SET n.type`), then merge every
relationship that has a target (`MATCH s, MATCH t, MERGE (s)-[r:TYPE]->(t)
SET r.description`); any exception inside a segment is caught, logged, and
the loop continues with the next segment. -/

/-- Pydantic `Node`: an extracted entity. -/
structure Node where
  id : String
  type : String
deriving DecidableEq

/-- Pydantic `Relationship`: an extracted relationship; `target` and
`description` are optional with default `None`. -/
structure Relationship where
  source : String
  target : Option String
  type : String
  description : Option String
deriving DecidableEq

/-- Pydantic `GraphData`: one extraction result. -/
structure GraphData where
  nodes : List Node
  relationships : List Relationship
deriving DecidableEq

/-- The Neo4j store contents: entity records keyed by `id` carrying `type`,
and edge records keyed by `(source id, target id, relationship type)`
carrying `description`.  Both lists are in record-creation order. -/
structure GraphStore where
  nodes : List (String × String)
  edges : List ((String × String × String) × String)
deriving DecidableEq

/-- One Cypher write issued by `ingest_documents`. -/
inductive StoreOp where
  | node (id type : String)
  | edge (source target type description : String)
deriving DecidableEq

/-- `MERGE (n:Entity {id: $id}) SET n.type = $type`. -/
def mergeNode (g : GraphStore) (id ty : String) : GraphStore :=
  { g with nodes := upsert g.nodes id ty }

/-- Whether an entity with the given id exists (the `MATCH (x:Entity {id})`
lookup of the edge query). -/
def hasNode (g : GraphStore) (id : String) : Prop := id ∈ keysOf g.nodes

instance (g : GraphStore) (id : String) : Decidable (hasNode g id) := by
  unfold hasNode
  infer_instance

/-- `MATCH (s {id:$source}) MATCH (t {id:$target}) MERGE (s)-[r:TY]->(t)
SET r.description = $description`: a no-op when either endpoint is missing,
otherwise an upsert keyed by the `(source, target, type)` triple. -/
def mergeEdge (g : GraphStore) (s t ty d : String) : GraphStore :=
  if hasNode g s ∧ hasNode g t then
    { g with edges := upsert g.edges (s, t, ty) d }
  else g

/-- Execute one write. -/
def applyOp (g : GraphStore) : StoreOp → GraphStore
  | .node i ty => mergeNode g i ty
  | .edge s t ty d => mergeEdge g s t ty d

/-- Execute a list of writes in order. -/
def applyOps (g : GraphStore) : List StoreOp → GraphStore
  | [] => g
  | op :: rest => applyOps (applyOp g op) rest

/-- The node writes of one segment: ids are whitespace-stripped
(`clean_id = node.id.strip()`). -/
def nodeOps (ns : List Node) : List StoreOp :=
  ns.map (fun n => .node (strip n.id) n.type)

/-- The relationship writes of one segment: a relationship with a falsy
target (`if not rel.target: continue`, i.e. `None` or the empty string) is
skipped; otherwise source and target are stripped, the type is normalized to
uppercase-with-underscores, and the description defaults to `""`. -/
def relOps (rels : List Relationship) : List StoreOp :=
  rels.filterMap (fun rel =>
    match rel.target with
    | none => none
    | some t =>
        if t = "" then none
        else some (.edge (strip rel.source) (strip t)
          (normalizeRelType rel.type) (rel.description.getD "")))

/-- All writes one extraction result produces, nodes first. -/
def segmentOps (d : GraphData) : List StoreOp :=
  nodeOps d.nodes ++ relOps d.relationships

/-- The external world of the builder: the LLM extraction call (which may
throw) and a per-write failure mode of the Neo4j driver (a write for which
`opFails` holds throws instead of executing). -/
structure IngestEnv where
  extract : String → Except Unit GraphData
  opFails : StoreOp → Bool

/-- Execute writes until the first one that throws; returns the resulting
store and the writes actually executed.  The exception aborts only the
remainder of the current segment. -/
def runOps (env : IngestEnv) (g : GraphStore) : List StoreOp → GraphStore × List StoreOp
  | [] => (g, [])
  | op :: rest =>
      if env.opFails op then (g, [])
      else
        let r := runOps env (applyOp g op) rest
        (r.1, op :: r.2)

/-- `GraphBuilder.ingest_documents`: process segments in order; a segment
whose extraction throws contributes nothing; each write of a successfully
extracted segment executes until a write throws; every exception is caught
per segment.  Returns the final store and the executed write trace. -/
def ingest_documents (env : IngestEnv) (g : GraphStore) :
    List String → GraphStore × List StoreOp
  | [] => (g, [])
  | seg :: rest =>
      match env.extract seg with
      | .error _ => ingest_documents env g rest
      | .ok data =>
          let r := runOps env g (segmentOps data)
          let next := ingest_documents env r.1 rest
          (next.1, r.2 ++ next.2)

/-! ### Helper lemmas about ingestion -/

lemma applyOps_append (g : GraphStore) :
    ∀ xs ys : List StoreOp, applyOps g (xs ++ ys) = applyOps (applyOps g xs) ys := by
  intro xs
  induction xs generalizing g with
  | nil => intro ys; rfl
  | cons op rest ih => intro ys; exact ih (applyOp g op) ys

/-- The key-value pairs of the node phase. -/
def nodeKVs (ns : List Node) : List (String × String) :=
  ns.map (fun n => (strip n.id, n.type))

/-- The key-value pairs of the edge phase, filtered by the endpoint lookups
against a fixed node table. -/
def edgeKVs (table : List (String × String)) (rels : List Relationship) :
    List ((String × String × String) × String) :=
  rels.filterMap (fun rel =>
    match rel.target with
    | none => none
    | some t =>
        if t = "" then none
        else
          if strip rel.source ∈ keysOf table ∧ strip t ∈ keysOf table then
            some ((strip rel.source, strip t, normalizeRelType rel.type),
              rel.description.getD "")
          else none)

lemma relOps_cons_none {rel : Relationship} (rest : List Relationship)
    (h : rel.target = none) : relOps (rel :: rest) = relOps rest := by
  simp [relOps, List.filterMap_cons, h]

lemma relOps_cons_empty {rel : Relationship} (rest : List Relationship)
    (h : rel.target = some "") : relOps (rel :: rest) = relOps rest := by
  simp [relOps, List.filterMap_cons, h]

lemma relOps_cons_some {rel : Relationship} {t : String} (rest : List Relationship)
    (h : rel.target = some t) (ht : t ≠ "") :
    relOps (rel :: rest) =
      .edge (strip rel.source) (strip t) (normalizeRelType rel.type)
        (rel.description.getD "") :: relOps rest := by
  simp [relOps, List.filterMap_cons, h, ht]

lemma relOps_append (xs ys : List Relationship) :
    relOps (xs ++ ys) = relOps xs ++ relOps ys := by
  unfold relOps
  exact List.filterMap_append xs ys _

lemma edgeKVs_cons_none {rel : Relationship} (table : List (String × String))
    (rest : List Relationship) (h : rel.target = none) :
    edgeKVs table (rel :: rest) = edgeKVs table rest := by
  simp [edgeKVs, List.filterMap_cons, h]

lemma edgeKVs_cons_empty {rel : Relationship} (table : List (String × String))
    (rest : List Relationship) (h : rel.target = some "") :
    edgeKVs table (rel :: rest) = edgeKVs table rest := by
  simp [edgeKVs, List.filterMap_cons, h]

lemma edgeKVs_cons_some_in {rel : Relationship} {t : String}
    (table : List (String × String)) (rest : List Relationship)
    (h : rel.target = some t) (ht : t ≠ "")
    (hin : strip rel.source ∈ keysOf table ∧ strip t ∈ keysOf table) :
    edgeKVs table (rel :: rest) =
      ((strip rel.source, strip t, normalizeRelType rel.type),
        rel.description.getD "") :: edgeKVs table rest := by
  simp [edgeKVs, List.filterMap_cons, h, ht, hin.1, hin.2]

lemma edgeKVs_cons_some_out {rel : Relationship} {t : String}
    (table : List (String × String)) (rest : List Relationship)
    (h : rel.target = some t) (ht : t ≠ "")
    (hout : ¬(strip rel.source ∈ keysOf table ∧ strip t ∈ keysOf table)) :
    edgeKVs table (rel :: rest) = edgeKVs table rest := by
  simp only [edgeKVs, List.filterMap_cons, h, if_neg ht, if_neg hout]

lemma applyOps_nodeOps (ns : List Node) :
    ∀ g : GraphStore, applyOps g (nodeOps ns) =
      { nodes := upserts g.nodes (nodeKVs ns), edges := g.edges } := by
  induction ns with
  | nil => intro g; rfl
  | cons n rest ih => intro g; exact ih (mergeNode g (strip n.id) n.type)

lemma applyOps_relOps (rels : List Relationship) :
    ∀ g : GraphStore, applyOps g (relOps rels) =
      { nodes := g.nodes, edges := upserts g.edges (edgeKVs g.nodes rels) } := by
  induction rels with
  | nil => intro g; rfl
  | cons rel rest ih =>
      intro g
      rcases htgt : rel.target with _ | t
      · rw [relOps_cons_none rest htgt, edgeKVs_cons_none g.nodes rest htgt]
        exact ih g
      · by_cases ht : t = ""
        · subst ht
          rw [relOps_cons_empty rest htgt, edgeKVs_cons_empty g.nodes rest htgt]
          exact ih g
        · rw [relOps_cons_some rest htgt ht]
          by_cases hg : hasNode g (strip rel.source) ∧ hasNode g (strip t)
          · rw [edgeKVs_cons_some_in g.nodes rest htgt ht hg, upserts]
            show applyOps (mergeEdge g _ _ _ _) (relOps rest) = _
            rw [mergeEdge, if_pos hg, ih]
          · rw [edgeKVs_cons_some_out g.nodes rest htgt ht hg]
            show applyOps (mergeEdge g _ _ _ _) (relOps rest) = _
            rw [mergeEdge, if_neg hg, ih g]

/-- Replaying all writes of a segment against the store that already
absorbed them changes nothing. -/
lemma segment_absorb (d : GraphData) (g : GraphStore) :
    applyOps (applyOps g (segmentOps d)) (segmentOps d) =
      applyOps g (segmentOps d) := by
  have hseg : ∀ h : GraphStore, applyOps h (segmentOps d) =
      { nodes := upserts h.nodes (nodeKVs d.nodes),
        edges := upserts h.edges
          (edgeKVs (upserts h.nodes (nodeKVs d.nodes)) d.relationships) } := by
    intro h
    rw [segmentOps, applyOps_append, applyOps_nodeOps, applyOps_relOps]
  rw [hseg g, hseg _]
  dsimp only
  rw [upserts_absorb, upserts_absorb]

lemma runOps_no_fail (env : IngestEnv) (hnf : ∀ op, env.opFails op = false) :
    ∀ (ops : List StoreOp) (g : GraphStore),
      runOps env g ops = (applyOps g ops, ops) := by
  intro ops
  induction ops with
  | nil => intro g; rfl
  | cons op rest ih =>
      intro g
      rw [runOps, hnf op]
      simp only [Bool.false_eq_true, if_false, ih (applyOp g op)]
      rfl

lemma runOps_trace_indep (env : IngestEnv) :
    ∀ (ops : List StoreOp) (g g' : GraphStore),
      (runOps env g ops).2 = (runOps env g' ops).2 := by
  intro ops
  induction ops with
  | nil => intro g g'; rfl
  | cons op rest ih =>
      intro g g'
      rw [runOps, runOps]
      by_cases h : env.opFails op
      · rw [if_pos h, if_pos h]
      · rw [if_neg h, if_neg h]
        simp only
        rw [ih (applyOp g op) (applyOp g' op)]

lemma ingest_append (env : IngestEnv) :
    ∀ (xs ys : List String) (g : GraphStore),
      ingest_documents env g (xs ++ ys) =
        ((ingest_documents env (ingest_documents env g xs).1 ys).1,
         (ingest_documents env g xs).2 ++
           (ingest_documents env (ingest_documents env g xs).1 ys).2) := by
  intro xs
  induction xs with
  | nil => intro ys g; rfl
  | cons x rest ih =>
      intro ys g
      rw [List.cons_append, ingest_documents, ingest_documents]
      rcases hx : env.extract x with _ | data
      · exact ih ys g
      · simp only
        rw [ih ys (runOps env g (segmentOps data)).1, List.append_assoc]

lemma ingest_trace_indep (env : IngestEnv) :
    ∀ (segs : List String) (g g' : GraphStore),
      (ingest_documents env g segs).2 = (ingest_documents env g' segs).2 := by
  intro segs
  induction segs with
  | nil => intro g g'; rfl
  | cons seg rest ih =>
      intro g g'
      rw [ingest_documents, ingest_documents]
      rcases hx : env.extract seg with _ | data
      · exact ih g g'
      · simp only
        rw [runOps_trace_indep env (segmentOps data) g g',
          ih (runOps env g (segmentOps data)).1 (runOps env g' (segmentOps data)).1]

/-! ## Web crawler (`web_loader.py`)

`WebLoader.load` runs a FIFO frontier of `(url, depth)` pairs seeded with
`(start_url, 0)`, guarded by `while queue and len(visited) < max_pages`.
`scrape_page` skips visited or over-cap URLs with `return []` — a single
bare list — while its success and exception paths return a
`(docs, links)` pair; `load` tuple-unpacks the result, so the bare-list
shape raises a `ValueError` at the unpacking site, modelled as an
`Except.error`. -/

/-- A fetched and parsed page: the cleaned visible text, the optional
`<title>` string, and the raw `href` attributes of its anchors. -/
structure Page where
  text : String
  title : Option String
  hrefs : List String

/-- The crawler's external world: `urlparse(u).netloc`, `urljoin`, and the
HTTP fetch plus parse (`none` models any exception: network error, timeout,
non-2xx status). -/
structure Web where
  netloc : String → String
  urljoin : String → String → String
  fetch : String → Option Page

/-- A langchain `Document` as built by `scrape_page`: page content plus
`source` and `title` metadata. -/
structure Doc where
  page_content : String
  source : String
  title : String
deriving DecidableEq

/-- The fields of a `WebLoader` instance. -/
structure WebLoader where
  start_url : String
  max_depth : Nat
  max_pages : Nat
  visited : List String
  base_domain : String

/-- `WebLoader.__init__`: empty visited set, base domain taken from the
seed URL. -/
def WebLoader.init (w : Web) (url : String) (maxDepth maxPages : Nat) : WebLoader :=
  { start_url := url, max_depth := maxDepth, max_pages := maxPages,
    visited := [], base_domain := w.netloc url }

/-- `WebLoader.is_same_domain`. -/
def is_same_domain (w : Web) (L : WebLoader) (url : String) : Prop :=
  w.netloc url = L.base_domain

instance (w : Web) (L : WebLoader) (url : String) :
    Decidable (is_same_domain w L url) := by
  unfold is_same_domain
  infer_instance

/-- The value `scrape_page` returns.  The skip branch executes `return []`
(a single bare list); the success and exception branches return a
`(docs, links)` pair. -/
inductive SPRet where
  | bareList (docs : List Doc)
  | pair (docs : List Doc) (links : List String)
deriving DecidableEq

/-- `WebLoader.scrape_page`: skip already-visited or over-cap URLs with a
bare `[]`; otherwise mark the URL visited and fetch it.  On success, build
one Document (title falls back to `"No Title"`) and collect the outbound
links: each href resolved against the page URL, fragment-stripped, kept
when same-domain and not yet visited.  On a fetch exception return
`([], [])`. -/
def scrape_page (w : Web) (L : WebLoader) (url : String) : SPRet × WebLoader :=
  if url ∈ L.visited ∨ L.max_pages ≤ L.visited.length then
    (.bareList [], L)
  else
    let L' := { L with visited := url :: L.visited }
    match w.fetch url with
    | none => (.pair [] [], L')
    | some pg =>
        let docs : List Doc :=
          [{ page_content := pg.text, source := url, title := pg.title.getD "No Title" }]
        let links := pg.hrefs.filterMap (fun href =>
          let full_url := stripFragment (w.urljoin url href)
          if is_same_domain w L' full_url ∧ full_url ∉ L'.visited then
            some full_url
          else none)
        (.pair docs links, L')

/-- The state of `load`: the loader object, the FIFO frontier, the
accumulated documents, and an instrumentation log recording the
`(url, depth)` of every `scrape_page` call that passed the skip guard and
attempted an HTTP fetch. -/
structure LoadState where
  loader : WebLoader
  queue : List (String × Nat)
  all_docs : List Doc
  fetchLog : List (String × Nat)

/-- `load`'s per-iteration frontier update: when depth allows, append each
new link not yet visited at `depth+1`; at the depth limit, discard the
links. -/
def enqueueLinks (rest : List (String × Nat)) (visited : List String)
    (current_depth maxDepth : Nat) (new_links : List String) : List (String × Nat) :=
  if current_depth < maxDepth then
    rest ++ (new_links.filter (fun l => decide (l ∉ visited))).map
      (fun l => (l, current_depth + 1))
  else rest

/-- One `while` loop of `WebLoader.load`, fuelled: pop the frontier head
(loop guard `queue and len(visited) < max_pages`), skip items deeper than
`max_depth`, tuple-unpack `scrape_page`'s result — a bare list raises
`ValueError` — extend the documents, and enqueue the unvisited new links
at `depth+1` when depth allows.  `none` means the fuel ran out. -/
def loadLoop (w : Web) : Nat → LoadState → Option (Except Unit (List Doc)) × LoadState
  | 0, st => (none, st)
  | _ + 1, ⟨L, [], docs, log⟩ => (some (.ok docs), ⟨L, [], docs, log⟩)
  | fuel + 1, ⟨L, (current_url, current_depth) :: rest, docs, log⟩ =>
      if L.visited.length < L.max_pages then
        if L.max_depth < current_depth then
          loadLoop w fuel ⟨L, rest, docs, log⟩
        else
          match scrape_page w L current_url with
          | (.bareList _, L') => (some (.error ()), ⟨L', rest, docs, log⟩)
          | (.pair page_docs new_links, L') =>
              loadLoop w fuel
                ⟨L', enqueueLinks rest L'.visited current_depth L.max_depth new_links,
                  docs ++ page_docs, log ++ [(current_url, current_depth)]⟩
      else (some (.ok docs), ⟨L, (current_url, current_depth) :: rest, docs, log⟩)

/-- `WebLoader.load`: run the loop from the seed frontier `[(start_url, 0)]`. -/
def load (w : Web) (L : WebLoader) (fuel : Nat) :
    Option (Except Unit (List Doc)) × LoadState :=
  loadLoop w fuel ⟨L, [(L.start_url, 0)], [], []⟩

/-! ### Helper lemmas about the crawler -/

lemma scrape_page_snd (w : Web) (L : WebLoader) (url : String) :
    (scrape_page w L url).2 =
      if url ∈ L.visited ∨ L.max_pages ≤ L.visited.length then L
      else { L with visited := url :: L.visited } := by
  unfold scrape_page
  by_cases h : url ∈ L.visited ∨ L.max_pages ≤ L.visited.length
  · rw [if_pos h, if_pos h]
  · rw [if_neg h, if_neg h]
    cases w.fetch url <;> rfl

lemma scrape_page_max_pages (w : Web) (L : WebLoader) (url : String) :
    (scrape_page w L url).2.max_pages = L.max_pages := by
  rw [scrape_page_snd]
  split <;> rfl

lemma scrape_page_max_depth (w : Web) (L : WebLoader) (url : String) :
    (scrape_page w L url).2.max_depth = L.max_depth := by
  rw [scrape_page_snd]
  split <;> rfl

lemma scrape_page_base_domain (w : Web) (L : WebLoader) (url : String) :
    (scrape_page w L url).2.base_domain = L.base_domain := by
  rw [scrape_page_snd]
  split <;> rfl

lemma scrape_page_visited_superset (w : Web) (L : WebLoader) (url : String) :
    ∀ u ∈ L.visited, u ∈ (scrape_page w L url).2.visited := by
  rw [scrape_page_snd]
  split
  · exact fun u hu => hu
  · exact fun u hu => List.mem_cons_of_mem _ hu

lemma scrape_page_visited_length (w : Web) (L : WebLoader) (url : String)
    (h : L.visited.length ≤ L.max_pages) :
    (scrape_page w L url).2.visited.length ≤ L.max_pages := by
  rw [scrape_page_snd]
  split
  · exact h
  · next hc =>
      push_neg at hc
      exact hc.2

lemma scrape_page_bareList {w : Web} {L : WebLoader} {url : String}
    {ds : List Doc} {L' : WebLoader}
    (h : scrape_page w L url = (.bareList ds, L')) : L' = L := by
  unfold scrape_page at h
  by_cases hc : url ∈ L.visited ∨ L.max_pages ≤ L.visited.length
  · rw [if_pos hc] at h
    cases h
    rfl
  · rw [if_neg hc] at h
    rcases hf : w.fetch url with _ | pg <;> rw [hf] at h <;>
      simp [Prod.ext_iff] at h

lemma scrape_page_pair {w : Web} {L : WebLoader} {url : String}
    {docs : List Doc} {links : List String} {L' : WebLoader}
    (h : scrape_page w L url = (.pair docs links, L')) :
    (∀ d ∈ docs, d.source = url) ∧ (∀ l ∈ links, w.netloc l = L.base_domain) := by
  unfold scrape_page at h
  by_cases hc : url ∈ L.visited ∨ L.max_pages ≤ L.visited.length
  · rw [if_pos hc] at h
    simp [Prod.ext_iff] at h
  · rw [if_neg hc] at h
    rcases hf : w.fetch url with _ | pg <;> rw [hf] at h <;>
      rw [Prod.ext_iff] at h <;> obtain ⟨h1, -⟩ := h <;> injection h1 with hd hl
    · subst hd
      subst hl
      exact ⟨fun d hd' => absurd hd' (List.not_mem_nil d),
        fun l hl' => absurd hl' (List.not_mem_nil l)⟩
    · subst hd
      subst hl
      constructor
      · intro d hd'
        rw [List.mem_singleton] at hd'
        rw [hd']
      · intro l hl'
        obtain ⟨href, -, heq⟩ := List.mem_filterMap.mp hl'
        dsimp only at heq
        split at heq
        · next hcond =>
            cases heq
            exact hcond.1
        · cases heq

lemma enqueueLinks_mem {rest : List (String × Nat)} {visited : List String}
    {current_depth maxDepth : Nat} {new_links : List String} {q : String × Nat}
    (hq : q ∈ enqueueLinks rest visited current_depth maxDepth new_links) :
    q ∈ rest ∨ (q.1 ∈ new_links ∧ q.2 = current_depth + 1) := by
  unfold enqueueLinks at hq
  split at hq
  · rcases List.mem_append.mp hq with hq | hq
    · exact Or.inl hq
    · obtain ⟨l, hl, hle⟩ := List.mem_map.mp hq
      refine Or.inr ⟨?_, ?_⟩
      · rw [← hle]
        exact (List.mem_filter.mp hl).1
      · rw [← hle]
  · exact Or.inl hq

lemma loadLoop_zero (w : Web) (st : LoadState) : loadLoop w 0 st = (none, st) := by
  obtain ⟨L, q, docs, log⟩ := st
  cases q with
  | nil => rfl
  | cons head rest =>
      obtain ⟨u, d⟩ := head
      rfl

/-- The configuration fields of the loader never change across the loop, the
visited set only grows, its size stays within `max_pages`, and every fetch
the loop attempts happens at a depth within `max_depth`. -/
lemma loadLoop_inv (w : Web) :
    ∀ (fuel : Nat) (st : LoadState),
      ((loadLoop w fuel st).2.loader.max_pages = st.loader.max_pages) ∧
      ((loadLoop w fuel st).2.loader.max_depth = st.loader.max_depth) ∧
      ((loadLoop w fuel st).2.loader.base_domain = st.loader.base_domain) ∧
      (∀ u ∈ st.loader.visited, u ∈ (loadLoop w fuel st).2.loader.visited) ∧
      (st.loader.visited.length ≤ st.loader.max_pages →
        (loadLoop w fuel st).2.loader.visited.length ≤ st.loader.max_pages) ∧
      (∃ nl, (loadLoop w fuel st).2.fetchLog = st.fetchLog ++ nl ∧
        ∀ p ∈ nl, p.2 ≤ st.loader.max_depth) := by
  intro fuel
  induction fuel with
  | zero =>
      intro st
      rw [loadLoop_zero]
      exact ⟨rfl, rfl, rfl, fun u hu => hu, fun h => h,
        ⟨[], (List.append_nil _).symm, by simp⟩⟩
  | succ n ih =>
      intro st
      obtain ⟨L, q, docs, log⟩ := st
      cases q with
      | nil =>
          exact ⟨rfl, rfl, rfl, fun u hu => hu, fun h => h,
            ⟨[], (List.append_nil _).symm, by simp⟩⟩
      | cons head rest =>
          obtain ⟨current_url, current_depth⟩ := head
          show
            ((loadLoop w (n + 1) ⟨L, (current_url, current_depth) :: rest, docs, log⟩).2.loader.max_pages = L.max_pages) ∧ _
          rw [loadLoop]
          by_cases hguard : L.visited.length < L.max_pages
          · rw [if_pos hguard]
            by_cases hdepth : L.max_depth < current_depth
            · rw [if_pos hdepth]
              exact ih ⟨L, rest, docs, log⟩
            · rw [if_neg hdepth]
              rcases hsp : scrape_page w L current_url with ⟨ret, L'⟩
              cases ret with
              | bareList ds =>
                  have hL : L' = L := scrape_page_bareList hsp
                  subst hL
                  exact ⟨rfl, rfl, rfl, fun u hu => hu, fun h => h,
                    ⟨[], (List.append_nil _).symm, by simp⟩⟩
              | pair page_docs new_links =>
                  have h2 : (scrape_page w L current_url).2 = L' := by rw [hsp]
                  have hmp : L'.max_pages = L.max_pages := by
                    rw [← h2, scrape_page_max_pages]
                  have hmd : L'.max_depth = L.max_depth := by
                    rw [← h2, scrape_page_max_depth]
                  have hbd : L'.base_domain = L.base_domain := by
                    rw [← h2, scrape_page_base_domain]
                  obtain ⟨i1, i2, i3, i4, i5, nl', i6, i7⟩ :=
                    ih ⟨L', enqueueLinks rest L'.visited current_depth L.max_depth new_links,
                      docs ++ page_docs, log ++ [(current_url, current_depth)]⟩
                  refine ⟨by rw [i1]; exact hmp, by rw [i2]; exact hmd,
                    by rw [i3]; exact hbd, ?_, ?_, ?_⟩
                  · intro u hu
                    refine i4 u ?_
                    rw [← h2]
                    exact scrape_page_visited_superset w L current_url u hu
                  · intro hlen
                    have hlen' : L'.visited.length ≤ L'.max_pages := by
                      rw [hmp, ← h2]
                      exact scrape_page_visited_length w L current_url hlen
                    have := i5 hlen'
                    rw [hmp] at this
                    exact this
                  · refine ⟨(current_url, current_depth) :: nl', ?_, ?_⟩
                    · rw [i6, List.append_assoc]
                      rfl
                    · intro p hp
                      rcases List.mem_cons.mp hp with hp | hp
                      · rw [hp]
                        exact Nat.le_of_not_lt hdepth
                      · have := i7 p hp
                        rw [hmd] at this
                        exact this
          · rw [if_neg hguard]
            exact ⟨rfl, rfl, rfl, fun u hu => hu, fun h => h,
              ⟨[], (List.append_nil _).symm, by simp⟩⟩

/-- Every document accumulated by the loop comes from a frontier URL, and
every frontier URL is same-domain; so every document in a normal return is
same-domain. -/
lemma loadLoop_docs_domain (w : Web) :
    ∀ (fuel : Nat) (st : LoadState),
      (∀ q ∈ st.queue, w.netloc q.1 = st.loader.base_domain) →
      (∀ d ∈ st.all_docs, w.netloc d.source = st.loader.base_domain) →
      ∀ docs, (loadLoop w fuel st).1 = some (.ok docs) →
        ∀ d ∈ docs, w.netloc d.source = st.loader.base_domain := by
  intro fuel
  induction fuel with
  | zero =>
      intro st hq hd docs hres
      rw [loadLoop_zero] at hres
      cases hres
  | succ n ih =>
      intro st hq hd docs hres
      obtain ⟨L, q, docsAcc, log⟩ := st
      cases q with
      | nil =>
          cases hres
          exact hd
      | cons head rest =>
          obtain ⟨current_url, current_depth⟩ := head
          rw [loadLoop] at hres
          by_cases hguard : L.visited.length < L.max_pages
          · rw [if_pos hguard] at hres
            by_cases hdepth : L.max_depth < current_depth
            · rw [if_pos hdepth] at hres
              exact ih ⟨L, rest, docsAcc, log⟩
                (fun p hp => hq p (List.mem_cons_of_mem _ hp)) hd docs hres
            · rw [if_neg hdepth] at hres
              rcases hsp : scrape_page w L current_url with ⟨ret, L'⟩
              rw [hsp] at hres
              cases ret with
              | bareList ds =>
                  cases hres
              | pair page_docs new_links =>
                  have h2 : (scrape_page w L current_url).2 = L' := by rw [hsp]
                  have hbd : L'.base_domain = L.base_domain := by
                    rw [← h2, scrape_page_base_domain]
                  have hpair := scrape_page_pair hsp
                  have hcur : w.netloc current_url = L.base_domain :=
                    hq (current_url, current_depth) (List.mem_cons_self _ _)
                  have hq' : ∀ p ∈ enqueueLinks rest L'.visited current_depth
                      L.max_depth new_links, w.netloc p.1 = L'.base_domain := by
                    intro p hp
                    rw [hbd]
                    rcases enqueueLinks_mem hp with hp | hp
                    · exact hq p (List.mem_cons_of_mem _ hp)
                    · exact hpair.2 p.1 hp.1
                  have hd' : ∀ d ∈ docsAcc ++ page_docs,
                      w.netloc d.source = L'.base_domain := by
                    intro d hdm
                    rw [hbd]
                    rcases List.mem_append.mp hdm with hdm | hdm
                    · exact hd d hdm
                    · rw [hpair.1 d hdm]
                      exact hcur
                  have := ih ⟨L', enqueueLinks rest L'.visited current_depth
                      L.max_depth new_links, docsAcc ++ page_docs,
                      log ++ [(current_url, current_depth)]⟩ hq' hd' docs hres
                  intro d hdm
                  rw [← hbd]
                  exact this d hdm
          · rw [if_neg hguard] at hres
            cases hres
            exact hd

/-! ## Hybrid retrieval (`rag_chain.py`) -/

/-- One row of the traversal query: `startNode(rel).id`, `type(rel)`,
`endNode(rel).id` and the target node's property map (Python dicts keep
insertion order, hence a list). -/
structure Row where
  source : String
  rel_type : String
  target : String
  target_props : List (String × String)
deriving DecidableEq

/-- `{k: v for k, v in props.items() if k not in ['id', 'type']}`. -/
def cleanPropsOf (props : List (String × String)) : List (String × String) :=
  props.filter (fun kv => decide (kv.1 ∉ ["id", "type"]))

/-- CPython `repr` of a string-valued dict, as interpolated by the f-string
`f" (Details: {clean_props})"`. -/
def propsRepr (ps : List (String × String)) : String :=
  "\x7b" ++ String.intercalate ", "
    (ps.map (fun kv => "\x27" ++ kv.1 ++ "\x27: \x27" ++ kv.2 ++ "\x27")) ++ "\x7d"

/-- The fact string built for one traversal row: `"<source> <type> <target>"`,
with a `" (Details: ...)"` suffix when the target carries a non-empty
property map that remains non-empty after dropping `id` and `type`. -/
def renderRow (r : Row) : String :=
  let fact := r.source ++ " " ++ r.rel_type ++ " " ++ r.target
  if r.target_props ≠ [] then
    let clean_props := cleanPropsOf r.target_props
    if clean_props ≠ [] then fact ++ " (Details: " ++ propsRepr clean_props ++ ")"
    else fact
  else fact

/-- The retrieval engine's external world: the LLM entity-extraction chain
and the Neo4j traversal query (which may throw). -/
structure RagEnv where
  llmEntity : String → String
  runQuery : String → Except Unit (List Row)

/-- `GraphRAGChain.get_graph_context`: extract and strip the focus entity,
run the traversal query for it, render each row as a fact string,
deduplicate with `set()` and join with newlines; on any query exception
return `""`.  CPython set iteration order is unspecified, so the
deduplicated facts are modelled in `List.dedup` order. -/
def get_graph_context (env : RagEnv) (query : String) : String :=
  let entity := strip (env.llmEntity query)
  match env.runQuery entity with
  | .ok result => String.intercalate "\n" (List.dedup (result.map renderRow))
  | .error _ => ""

/-! ## Concrete instances used by the witnesses -/

/-- A single-page web: the seed fetches successfully with no outbound
links; every URL parses to the host `example.com`. -/
def webW : Web :=
  { netloc := fun _ => "example.com",
    urljoin := fun _ href => href,
    fetch := fun u =>
      if u = "https://example.com" then some ⟨"hello", some "Example", []⟩
      else none }

/-- A web whose seed page links twice to the same same-domain page. -/
def webC1 : Web :=
  { netloc := fun _ => "example.com",
    urljoin := fun _ href => href,
    fetch := fun u =>
      if u = "https://example.com" then
        some ⟨"seed", none, ["https://example.com/a", "https://example.com/a"]⟩
      else if u = "https://example.com/a" then some ⟨"page a", none, []⟩
      else none }

/-- The crawl state at the seed of a `load` over `webW`. -/
def stW : LoadState :=
  ⟨WebLoader.init webW "https://example.com" 2 10, [("https://example.com", 0)], [], []⟩

/-- The document `webW`'s single page produces. -/
def docW : Doc := ⟨"hello", "https://example.com", "Example"⟩

/-- An extraction environment that always returns the Alice-works-for-Acme
segment, with a store that never throws. -/
def envC3 : IngestEnv :=
  { extract := fun _ => .ok
      { nodes := [⟨"Alice", "Person"⟩, ⟨"Acme", "Organization"⟩],
        relationships := [⟨"Alice", some "Acme", "works for", none⟩] },
    opFails := fun _ => false }

/-- An extraction environment that throws on the segment `"bad"` and returns
one node for any other segment. -/
def envC2 : IngestEnv :=
  { extract := fun s =>
      if s = "bad" then .error ()
      else .ok { nodes := [⟨s, "Segment"⟩], relationships := [] },
    opFails := fun _ => false }

/-- A relationship with whitespace-padded ids and a lowercase spaced type. -/
def relC5 : Relationship := ⟨" Alice ", some " Acme ", "works for", none⟩

/-- A retrieval environment whose traversal query always throws. -/
def envC6 : RagEnv := ⟨fun _ => " Acme ", fun _ => .error ()⟩

/-- A traversal row with no extra target properties. -/
def rowC9 : Row := ⟨"Alice", "WORKS_FOR", "Acme", []⟩

/-- A retrieval environment whose traversal returns the same row twice
(two paths reaching the same fact). -/
def envC9 : RagEnv := ⟨fun _ => "Acme", fun _ => .ok [rowC9, rowC9]⟩

/-! ## The claims -/

/-- Claim C1: the claim says that when `load` dequeues a URL already in the
visited set it skips the item and continues, `load` returning normally.  The
code instead crashes: `scrape_page`'s skip branch returns a bare `[]`, and
`load` tuple-unpacks it as `page_docs, new_links`, raising `ValueError`.
Evaluated here on a crawl whose seed links twice to the same page, so the
page is enqueued twice and dequeued a second time after being visited:
`load` ends in the error state instead of returning the document list. -/
theorem C1_visited_dequeue_raises :
    (load webC1 (WebLoader.init webC1 "https://example.com" 1 5) 10).1 =
      some (.error ()) := by rfl

/-- Claim C2: a segment whose extraction call throws contributes nothing and
aborts nothing: the store ends exactly as if the segment had been absent,
and the executed writes of a run decompose per segment, so every other
segment's merges reach the store exactly as they would standalone — also
when store writes themselves fail (`env.opFails` is arbitrary). -/
theorem C2_bad_segment_isolated (env : IngestEnv) (g : GraphStore)
    (pre : List String) (bad : String) (post : List String)
    (hbad : env.extract bad = .error ()) :
    ingest_documents env g (pre ++ bad :: post) = ingest_documents env g (pre ++ post)
    ∧ (ingest_documents env g (pre ++ bad :: post)).2 =
        (ingest_documents env g pre).2 ++ (ingest_documents env g [bad]).2 ++
          (ingest_documents env g post).2 := by
  have hsingle : ∀ (g' : GraphStore) (ps : List String),
      ingest_documents env g' (bad :: ps) = ingest_documents env g' ps := by
    intro g' ps
    rw [ingest_documents, hbad]
  have hmid : (ingest_documents env g [bad]).2 = [] := by
    rw [show ([bad] : List String) = bad :: [] from rfl, hsingle]
    rfl
  constructor
  · rw [ingest_append env pre (bad :: post) g, ingest_append env pre post g, hsingle]
  · rw [ingest_append env pre (bad :: post) g, hsingle, hmid, List.append_nil]
    dsimp only
    rw [ingest_trace_indep env post (ingest_documents env g pre).1 g]

/-- Claim C2 witness: with an extractor that throws on `"bad"`, ingesting
`[s1, bad, s2]` equals ingesting `[s1, s2]`. -/
theorem C2_witness :
    ingest_documents envC2 ⟨[], []⟩ (["s1"] ++ "bad" :: ["s2"]) =
      ingest_documents envC2 ⟨[], []⟩ (["s1"] ++ ["s2"]) :=
  (C2_bad_segment_isolated envC2 ⟨[], []⟩ ["s1"] "bad" ["s2"] rfl).1

/-- Claim C3: ingestion is idempotent.  With the store operational, running
`ingest_documents` on the same segment twice leaves the store (node records
keyed by stripped id, edge records keyed by the (source, target, normalized
type) triple) exactly equal to one run — same records, hence same counts. -/
theorem C3_ingest_idempotent (env : IngestEnv) (g : GraphStore) (seg : String)
    (hnf : ∀ op, env.opFails op = false) :
    (ingest_documents env (ingest_documents env g [seg]).1 [seg]).1 =
      (ingest_documents env g [seg]).1 := by
  rcases hx : env.extract seg with _ | data
  · have h1 : ∀ g' : GraphStore, ingest_documents env g' [seg] = (g', []) := by
      intro g'
      rw [ingest_documents, hx]
      rfl
    rw [h1, h1]
  · have h1 : ∀ g' : GraphStore, ingest_documents env g' [seg] =
        (applyOps g' (segmentOps data), segmentOps data) := by
      intro g'
      rw [ingest_documents, hx]
      dsimp only
      rw [runOps_no_fail env hnf]
      dsimp only [ingest_documents]
      rw [List.append_nil]
    rw [h1, h1]
    dsimp only
    exact segment_absorb data g

/-- Claim C3 witness: re-ingesting the Alice-works-for-Acme segment changes
nothing. -/
theorem C3_witness :
    (ingest_documents envC3 (ingest_documents envC3 ⟨[], []⟩ ["seg"]).1 ["seg"]).1 =
      (ingest_documents envC3 ⟨[], []⟩ ["seg"]).1 :=
  C3_ingest_idempotent envC3 ⟨[], []⟩ "seg" (fun _ => rfl)

/-- Claim C4: a relationship whose target is absent is dropped before
persistence: the write list of the segment is exactly the write list with
that relationship removed — no edge write for it, all other node and
relationship writes untouched (and the drop is a `continue`, not an
exception: `segmentOps` and its execution are total). -/
theorem C4_missing_target_dropped (nodes : List Node)
    (rels1 rels2 : List Relationship) (rel : Relationship)
    (htgt : rel.target = none) :
    segmentOps ⟨nodes, rels1 ++ rel :: rels2⟩ = segmentOps ⟨nodes, rels1 ++ rels2⟩ := by
  rw [segmentOps, segmentOps]
  dsimp only
  rw [relOps_append, relOps_append, relOps_cons_none rels2 htgt]

/-- Claim C4 witness: a node plus one targetless relationship issues the
same writes as the node alone. -/
theorem C4_witness :
    segmentOps ⟨[⟨"A", "T"⟩], [⟨"A", none, "R", none⟩]⟩ =
      segmentOps ⟨[⟨"A", "T"⟩], []⟩ :=
  C4_missing_target_dropped [⟨"A", "T"⟩] [] [] ⟨"A", none, "R", none⟩ rfl

/-- Claim C5: every persisted relationship write carries the
whitespace-stripped source and target ids, the extraction-supplied type
uppercased with spaces replaced by underscores, and the supplied description
or `""`; and `"works for"` normalizes to `"WORKS_FOR"`. -/
theorem C5_edge_fields_normalized :
    (∀ (rels : List Relationship) (op : StoreOp), op ∈ relOps rels →
      ∃ rel ∈ rels, ∃ t, rel.target = some t ∧ t ≠ "" ∧
        op = .edge (strip rel.source) (strip t) (normalizeRelType rel.type)
          (rel.description.getD ""))
    ∧ normalizeRelType "works for" = "WORKS_FOR" := by
  constructor
  · intro rels op hop
    obtain ⟨rel, hrel, heq⟩ := List.mem_filterMap.mp hop
    refine ⟨rel, hrel, ?_⟩
    rcases htgt : rel.target with _ | t
    · simp [htgt] at heq
    · by_cases ht : t = ""
      · simp [htgt, ht] at heq
      · simp only [htgt, if_neg ht, Option.some_inj] at heq
        exact ⟨t, rfl, ht, heq.symm⟩
  · decide

/-- Claim C5 witness: the padded, lowercase `works for` relationship becomes
the stripped, normalized `WORKS_FOR` edge write. -/
theorem C5_witness :
    ∃ rel ∈ [relC5], ∃ t, rel.target = some t ∧ t ≠ "" ∧
      StoreOp.edge "Alice" "Acme" "WORKS_FOR" "" =
        .edge (strip rel.source) (strip t) (normalizeRelType rel.type)
          (rel.description.getD "") :=
  C5_edge_fields_normalized.1 [relC5]
    (.edge "Alice" "Acme" "WORKS_FOR" "") (by decide)

/-- Claim C6: when the graph traversal query throws, `get_graph_context`
returns the empty string instead of propagating the error. -/
theorem C6_graph_failure_empty_context (env : RagEnv) (q : String)
    (hfail : env.runQuery (strip (env.llmEntity q)) = .error ()) :
    get_graph_context env q = "" := by
  simp only [get_graph_context, hfail]

/-- Claim C6 witness: a throwing traversal yields the empty context. -/
theorem C6_witness : get_graph_context envC6 "what does Acme sell" = "" :=
  C6_graph_failure_empty_context envC6 "what does Acme sell" rfl

/-- Claim C7: across any run of the crawl loop, the visited set's size never
exceeds `max_pages`, the visited set only grows, and every attempted fetch
happens at a depth of at most `max_depth`. -/
theorem C7_crawl_bounds (w : Web) (fuel : Nat) (st : LoadState)
    (hlen : st.loader.visited.length ≤ st.loader.max_pages) :
    ((loadLoop w fuel st).2.loader.visited.length ≤ st.loader.max_pages)
    ∧ (∀ u ∈ st.loader.visited, u ∈ (loadLoop w fuel st).2.loader.visited)
    ∧ (∃ nl, (loadLoop w fuel st).2.fetchLog = st.fetchLog ++ nl ∧
        ∀ p ∈ nl, p.2 ≤ st.loader.max_depth) := by
  obtain ⟨-, -, -, h4, h5, h6⟩ := loadLoop_inv w fuel st
  exact ⟨h5 hlen, h4, h6⟩

/-- Claim C7 witness: the bounds hold on a concrete single-page crawl. -/
theorem C7_witness :
    ((loadLoop webW 5 stW).2.loader.visited.length ≤ stW.loader.max_pages)
    ∧ (∀ u ∈ stW.loader.visited, u ∈ (loadLoop webW 5 stW).2.loader.visited)
    ∧ (∃ nl, (loadLoop webW 5 stW).2.fetchLog = stW.fetchLog ++ nl ∧
        ∀ p ∈ nl, p.2 ≤ stW.loader.max_depth) :=
  C7_crawl_bounds webW 5 stW (by decide)

/-- Claim C8: every document in a normal return of `load` has a URL whose
host equals the seed's host: the seed frontier is same-domain by
construction and only same-domain links are ever enqueued. -/
theorem C8_same_domain_docs (w : Web) (url : String)
    (maxDepth maxPages fuel : Nat) (docs : List Doc)
    (hres : (load w (WebLoader.init w url maxDepth maxPages) fuel).1 =
      some (.ok docs)) :
    ∀ d ∈ docs, w.netloc d.source = w.netloc url := by
  intro d hd
  refine loadLoop_docs_domain w fuel
    ⟨WebLoader.init w url maxDepth maxPages, [(url, 0)], [], []⟩ ?_ ?_ docs hres d hd
  · intro p hp
    rw [List.mem_singleton] at hp
    rw [hp]
    rfl
  · intro d' hd'
    exact absurd hd' (List.not_mem_nil d')

/-- Claim C8 witness: the single document of a concrete crawl is
same-domain. -/
theorem C8_witness :
    webW.netloc docW.source = webW.netloc "https://example.com" :=
  C8_same_domain_docs webW "https://example.com" 2 10 5 [docW] (by rfl) docW
    (List.mem_singleton.mpr rfl)

/-- Claim C9: on a successful traversal, the graph context is the
newline-join of the deduplicated fact strings: the deduplicated list has no
duplicates and exactly the members of the rendered rows (set semantics), and
each row renders as `"<source> <type> <target>"` with the parenthesized
details suffix appended exactly when the target's properties beyond `id` and
`type` are non-empty. -/
theorem C9_fact_rendering_dedup (env : RagEnv) (q : String) (rows : List Row)
    (hok : env.runQuery (strip (env.llmEntity q)) = .ok rows) :
    get_graph_context env q =
      String.intercalate "\n" (List.dedup (rows.map renderRow))
    ∧ (List.dedup (rows.map renderRow)).Nodup
    ∧ (∀ s, s ∈ List.dedup (rows.map renderRow) ↔ s ∈ rows.map renderRow)
    ∧ ∀ r : Row, renderRow r =
        (if cleanPropsOf r.target_props ≠ [] then
          r.source ++ " " ++ r.rel_type ++ " " ++ r.target ++
            " (Details: " ++ propsRepr (cleanPropsOf r.target_props) ++ ")"
        else r.source ++ " " ++ r.rel_type ++ " " ++ r.target) := by
  refine ⟨?_, List.nodup_dedup _, fun s => List.mem_dedup, ?_⟩
  · simp only [get_graph_context, hok]
  · intro r
    rw [renderRow]
    dsimp only
    by_cases hp : r.target_props ≠ []
    · rw [if_pos hp]
    · rw [if_neg hp]
      push_neg at hp
      rw [hp]
      rw [if_neg (by simp [cleanPropsOf])]

/-- Claim C9 witness: a traversal reaching the same fact twice produces the
deduplicated context. -/
theorem C9_witness :
    get_graph_context envC9 "Acme" =
      String.intercalate "\n" (List.dedup ([rowC9, rowC9].map renderRow)) :=
  (C9_fact_rendering_dedup envC9 "Acme" [rowC9, rowC9] rfl).1

/-- Claim C10: a relationship whose target is present but equal to the empty
string is dropped exactly like an absent target — same write list as with
the relationship removed — while the check is on the raw value: any
non-empty target, even all-whitespace, still produces an edge write (whose
target id is then the stripped value). -/
theorem C10_empty_target_dropped (nodes : List Node)
    (rels1 rels2 : List Relationship) (rel : Relationship)
    (htgt : rel.target = some "") :
    segmentOps ⟨nodes, rels1 ++ rel :: rels2⟩ = segmentOps ⟨nodes, rels1 ++ rels2⟩
    ∧ ∀ (rel' : Relationship) (rest : List Relationship) (t : String),
        rel'.target = some t → t ≠ "" →
        relOps (rel' :: rest) =
          .edge (strip rel'.source) (strip t) (normalizeRelType rel'.type)
            (rel'.description.getD "") :: relOps rest := by
  constructor
  · rw [segmentOps, segmentOps]
    dsimp only
    rw [relOps_append, relOps_append, relOps_cons_empty rels2 htgt]
  · intro rel' rest t h ht
    exact relOps_cons_some rest h ht

/-- Claim C10 witness: an empty-string target is dropped. -/
theorem C10_witness :
    segmentOps ⟨[], [⟨"A", some "", "R", none⟩]⟩ = segmentOps ⟨[], []⟩ :=
  (C10_empty_target_dropped [] [] [] ⟨"A", some "", "R", none⟩ rfl).1

end GraphRAG
